import Mathlib

set_option maxRecDepth 100000

/-!
Shallow embedding of `process_audio_simple` from `silence_remover.py`.

The waveform is a list of rational samples (the Python code works on float
arrays; float arithmetic is idealized as exact rational arithmetic).  The
pipeline is modelled stage by stage:

* `framePowers` embeds `librosa.feature.rms(y=audio, frame_length, hop_length)`
  squared: with the library defaults `center=True, pad_mode="constant"` the
  signal is zero-padded by `frame_length // 2` on each side and framed with the
  given hop; each frame's mean of squared samples is the squared RMS value.
  The library raises (`ParameterError`) when `hop_length < 1` or when the
  padded signal is shorter than one frame; those failures are `none`.
* `silentB` embeds the classification
  `librosa.amplitude_to_db(rms, ref=np.max) < silence_threshold`.
  `amplitude_to_db` computes, at the power level,
  `db = 10*log10(max(1e-10, p)) - 10*log10(max(1e-10, pmax))`
  and then clips at `top_db = 80` below the maximum (which is 0 dB, attained
  by the loudest frame).  So a frame is silent iff
  `10*log10(A/B) < t  and  -80 < t` with `A = max(1e-10, p)`,
  `B = max(1e-10, pmax)`.  For a rational threshold `t = t.num / t.den` the
  first inequality is equivalent (raising both positive sides to the power
  `10 * t.den`) to `(A/B)^(10*t.den) < 10^t.num`, which is exact rational
  arithmetic and decidable.
* `runsFrom` embeds the scanning `while` loop that merges consecutive frames
  of equal classification into maximal runs, as `(is_silent, start_frame,
  end_frame)` triples.
* `emitRun` embeds the body of the loop: an audible run appends the verbatim
  sample slice `audio[start*hop : min(end*hop, len(audio))]`; a silent run of
  duration `(end-start)*hop/sr >= min_silence_duration` appends
  `np.zeros(int(target_silence_duration*sr))` (error, hence `none`, if that
  count is negative); a shorter silent run appends its verbatim slice when it
  is nonempty and nothing otherwise.  Pieces are tagged with the run's
  classification; the tag is bookkeeping only and never influences the output.
* `process_audio_simple` concatenates the emitted pieces, or returns the
  input unchanged when no piece was emitted.
-/

/-- Python slice `a[s:e]` (for `s ≤ e`; out-of-range indices are clamped). -/
def listSlice (a : List ℚ) (s e : ℕ) : List ℚ := (a.drop s).take (e - s)

/-- Python `int()` on a rational value: truncation toward zero. -/
def truncQ (q : ℚ) : ℤ := if 0 ≤ q then q.floor else q.ceil

theorem truncQ_eq_floor (q : ℚ) (h : 0 ≤ q) : truncQ q = ⌊q⌋ := by
  unfold truncQ
  rw [if_pos h, Rat.floor_def', ← Rat.floor_def]

/-- Squared RMS value of each frame, as computed by `librosa.feature.rms` with
`center=True, pad_mode="constant"`: zero padding of `fl / 2` on both sides,
frames of `fl` samples advanced by `hop`; `none` models the library errors for
`hop < 1` and for a padded signal shorter than one frame. -/
def paddedOf (a : List ℚ) (fl : ℕ) : List ℚ :=
  List.replicate (fl / 2) (0 : ℚ) ++ a ++ List.replicate (fl / 2) (0 : ℚ)

def framePowers (a : List ℚ) (fl hop : ℕ) : Option (List ℚ) :=
  if hop < 1 then none
  else if (paddedOf a fl).length < fl then none
  else
    some ((List.range (1 + ((paddedOf a fl).length - fl) / hop)).map
      (fun j => ((((paddedOf a fl).drop (j * hop)).take fl).map (fun x => x * x)).sum / (fl : ℚ)))

/-- Classification of one frame: `rms_db < t` where `rms_db` is the frame's
dB level relative to the loudest frame (`amplitude_to_db(rms, ref=np.max)`,
with its `amin = 1e-5` amplitude clamp and `top_db = 80` clip), expressed at
the squared-RMS (power) level `p` against the maximal power `pmax`. -/
def silentB (p pmax t : ℚ) : Bool :=
  let amin : ℚ := 1 / 10 ^ 10
  let A := max amin p
  let B := max amin pmax
  decide ((A / B) ^ (10 * t.den) < (10 : ℚ) ^ t.num ∧ (-80 : ℚ) < t)

/-- The boolean frame classification `silent_frames = rms_db < silence_threshold`
computed by `process_audio_simple` for waveform `a` at sample rate `sr`:
frame length `int(0.025*sr)`, hop `int(0.010*sr)`. -/
def silentFramesOf (a : List ℚ) (sr : ℕ) (t : ℚ) : Option (List Bool) :=
  match framePowers a (25 * sr / 1000) (10 * sr / 1000) with
  | none => none
  | some ps => some (ps.map (fun p => silentB p (ps.foldr max 0) t))

/-- Maximal runs of equal classification, scanning from frame index `i`:
each run is `(is_silent, start_frame, end_frame)`. -/
def runsFrom (i : ℕ) : List Bool → List (Bool × ℕ × ℕ)
  | [] => []
  | b :: xs =>
    match runsFrom (i + 1) xs with
    | [] => [(b, i, i + 1)]
    | (c, s, e) :: rest =>
      if b = c then (b, i, e) :: rest else (b, i, i + 1) :: (c, s, e) :: rest

/-- One iteration of the segment loop: what gets appended to `segments` for a
single run (tagged with the run's classification). -/
def emitRun (a : List ℚ) (sr hop : ℕ) (m tg : ℚ) : Bool × ℕ × ℕ → Option (List (Bool × List ℚ))
  | (false, s, e) => some [(false, listSlice a (s * hop) (min (e * hop) a.length))]
  | (true, s, e) =>
    if m ≤ (((e - s) * hop : ℕ) : ℚ) / (sr : ℚ) then
      let z := truncQ (tg * (sr : ℚ))
      if z < 0 then none else some [(true, List.replicate z.toNat (0 : ℚ))]
    else
      let ss := s * hop
      let es := min (e * hop) a.length
      if ss < es then some [(true, listSlice a ss es)] else some []

/-- The whole segment loop over a list of runs, in order. -/
def emitAll (a : List ℚ) (sr hop : ℕ) (m tg : ℚ) : List (Bool × ℕ × ℕ) → Option (List (Bool × List ℚ))
  | [] => some []
  | r :: rs =>
    match emitRun a sr hop m tg r, emitAll a sr hop m tg rs with
    | some p, some ps => some (p ++ ps)
    | _, _ => none

/-- The `segments` list built by `process_audio_simple` (tagged pieces). -/
def segsOf (a : List ℚ) (sr : ℕ) (t m tg : ℚ) : Option (List (Bool × List ℚ)) :=
  match silentFramesOf a sr t with
  | none => none
  | some sf => emitAll a sr (10 * sr / 1000) m tg (runsFrom 0 sf)

/-- The full `process_audio_simple(audio, sr, silence_threshold,
min_silence_duration, target_silence_duration)`: concatenate the emitted
segments, or return the input unchanged when no segment was appended. -/
def process_audio_simple (a : List ℚ) (sr : ℕ) (t m tg : ℚ) : Option (List ℚ) :=
  match segsOf a sr t m tg with
  | none => none
  | some segs => if segs = [] then some a else some ((segs.map Prod.snd).flatten)

/-- Modelled from the spec: the sample ranges of the audible-classified
segments of the input, in left-to-right order (spec section 4.1 step 5 and
section 8, "the audible-segment portions of input"). -/
def audibleContentSpec (a : List ℚ) (hop : ℕ) (sf : List Bool) : List (List ℚ) :=
  (runsFrom 0 sf).filterMap
    (fun r => if r.1 then none else some (listSlice a (r.2.1 * hop) (min (r.2.2 * hop) a.length)))

/-- Modelled from the spec: `round(x)` as used in the spec's
`round(target_silence_duration_s * sample_rate)` (at the inputs considered
here all standard rounding conventions agree). -/
def roundSpec (q : ℚ) : ℤ := (q + 1 / 2).floor

/-! Basic facts about `listSlice`. -/

theorem listSlice_length (a : List ℚ) (s e : ℕ) :
    (listSlice a s e).length = min (e - s) (a.length - s) := by
  simp [listSlice]

theorem listSlice_min (a : List ℚ) (s e : ℕ) :
    listSlice a s (min e a.length) = listSlice a s e := by
  unfold listSlice
  rcases le_or_lt e a.length with h | h
  · rw [min_eq_left h]
  · rw [min_eq_right h.le]
    have hlen : (a.drop s).length = a.length - s := a.length_drop s
    rw [List.take_of_length_le (by omega), List.take_of_length_le (by omega)]

theorem listSlice_nil_of_le (a : List ℚ) (s e : ℕ) (h : a.length ≤ s) :
    listSlice a s e = [] := by
  unfold listSlice
  rw [List.drop_eq_nil_of_le h, List.take_nil]

theorem listSlice_append (a : List ℚ) (x y z : ℕ) (h1 : x ≤ y) (h2 : y ≤ z) :
    listSlice a x y ++ listSlice a y z = listSlice a x z := by
  unfold listSlice
  rw [show z - x = (y - x) + (z - y) by omega, List.take_add, List.drop_drop,
    show x + (y - x) = y by omega]

/-- The chain invariant for run lists: starts and ends link up from `lo` to
`hi`, and every run is nonempty. -/
def Chained : ℕ → ℕ → List (Bool × ℕ × ℕ) → Prop
  | lo, hi, [] => lo = hi
  | lo, hi, r :: rs => r.2.1 = lo ∧ lo < r.2.2 ∧ Chained r.2.2 hi rs

theorem chained_nil_iff (lo hi : ℕ) : Chained lo hi [] ↔ lo = hi := Iff.rfl

theorem chained_cons_iff (lo hi : ℕ) (b : Bool) (s e : ℕ) (rs : List (Bool × ℕ × ℕ)) :
    Chained lo hi ((b, s, e) :: rs) ↔ s = lo ∧ lo < e ∧ Chained e hi rs := Iff.rfl

theorem chained_le : ∀ (rs : List (Bool × ℕ × ℕ)) (lo hi : ℕ), Chained lo hi rs → lo ≤ hi
  | [], lo, hi, h => le_of_eq h
  | r :: rs, lo, hi, h => le_trans (le_of_lt h.2.1) (chained_le rs r.2.2 hi h.2.2)

theorem runsFrom_eq_nil_iff (i : ℕ) (bs : List Bool) : runsFrom i bs = [] ↔ bs = [] := by
  constructor
  · intro h
    cases bs with
    | nil => rfl
    | cons b xs =>
      exfalso
      simp only [runsFrom] at h
      rcases hr : runsFrom (i + 1) xs with _ | ⟨⟨c, s, e⟩, rest⟩ <;> rw [hr] at h <;>
        [skip; by_cases hbc : b = c] <;> simp_all
  · intro h; subst h; rfl

theorem chained_runsFrom : ∀ (bs : List Bool) (i : ℕ), Chained i (i + bs.length) (runsFrom i bs)
  | [], i => by simp [runsFrom, Chained]
  | b :: xs, i => by
    have ih := chained_runsFrom xs (i + 1)
    have hlen : i + (b :: xs).length = i + 1 + xs.length := by simp; omega
    rw [hlen]
    rcases hr : runsFrom (i + 1) xs with _ | ⟨⟨c, s, e⟩, rest⟩
    · have hx : xs = [] := (runsFrom_eq_nil_iff _ _).mp hr
      subst hx
      simp [runsFrom, Chained]
    · rw [hr] at ih
      rw [chained_cons_iff] at ih
      obtain ⟨hs, hlt, hch⟩ := ih
      by_cases hbc : b = c
      · subst hbc
        simp only [runsFrom, hr, eq_self_iff_true, if_true]
        rw [chained_cons_iff]
        exact ⟨rfl, by omega, hch⟩
      · simp only [runsFrom, hr, if_neg hbc]
        rw [chained_cons_iff, chained_cons_iff]
        exact ⟨rfl, by omega, hs, hlt, hch⟩

theorem runsFrom_const : ∀ (bs : List Bool) (v : Bool) (i : ℕ),
    (∀ b ∈ bs, b = v) → bs ≠ [] → runsFrom i bs = [(v, i, i + bs.length)]
  | [], v, i, _, hne => absurd rfl hne
  | b :: xs, v, i, hall, _ => by
    have hb : b = v := hall b (by simp)
    subst hb
    simp only [runsFrom]
    rcases hx : xs with _ | ⟨y, ys⟩
    · simp [runsFrom]
    · rw [← hx]
      have ih := runsFrom_const xs b (i + 1)
        (fun c hc => hall c (List.mem_cons_of_mem _ hc)) (by simp [hx])
      rw [ih]
      have hlen : i + 1 + xs.length = i + (b :: xs).length := by simp; omega
      simp [hlen]

theorem paddedOf_length (a : List ℚ) (fl : ℕ) :
    (paddedOf a fl).length = 2 * (fl / 2) + a.length := by
  simp [paddedOf]
  omega

/-! Arithmetic facts about the frame count `1 + (paddedLength - fl) / hop`. -/

theorem frameCount_hop_bounds (N fl hop : ℕ) (h1 : 1 ≤ hop) (h2 : fl ≤ 2 * (fl / 2) + N) :
    N ≤ (1 + (2 * (fl / 2) + N - fl) / hop) * hop ∧
      (1 + (2 * (fl / 2) + N - fl) / hop) * hop ≤ N + hop := by
  have hfl := Nat.div_add_mod fl 2
  have hdm := Nat.div_add_mod (2 * (fl / 2) + N - fl) hop
  have hmod : (2 * (fl / 2) + N - fl) % hop < hop := Nat.mod_lt _ (by omega)
  have hmul : (1 + (2 * (fl / 2) + N - fl) / hop) * hop =
      hop + hop * ((2 * (fl / 2) + N - fl) / hop) := by ring
  rw [hmul]
  generalize hX : hop * ((2 * (fl / 2) + N - fl) / hop) = X at hdm ⊢
  omega

/-- Inversion of a successful classification: the framing guards hold and the
frame count is `1 + (paddedLength - frameLength) / hopLength`. -/
theorem silentFramesOf_inv (a : List ℚ) (sr : ℕ) (t : ℚ) (sf : List Bool)
    (h : silentFramesOf a sr t = some sf) :
    1 ≤ 10 * sr / 1000 ∧ 25 * sr / 1000 ≤ 2 * ((25 * sr / 1000) / 2) + a.length ∧
      sf.length =
        1 + (2 * ((25 * sr / 1000) / 2) + a.length - 25 * sr / 1000) / (10 * sr / 1000) := by
  unfold silentFramesOf at h
  rcases hfp : framePowers a (25 * sr / 1000) (10 * sr / 1000) with _ | ps <;> rw [hfp] at h
  · exact absurd h (by simp)
  · injection h with h
    subst h
    unfold framePowers at hfp
    split at hfp
    · exact absurd hfp (by simp)
    · split at hfp
      · exact absurd hfp (by simp)
      · injection hfp with hps
        subst hps
        simp only [List.length_map, List.length_range, paddedOf_length] at *
        exact ⟨by omega, by omega, by trivial⟩

/-- Inversion of one step of the segment loop. -/
theorem emitAll_cons_inv (a : List ℚ) (sr hop : ℕ) (m tg : ℚ) (r : Bool × ℕ × ℕ)
    (rs : List (Bool × ℕ × ℕ)) (segs : List (Bool × List ℚ))
    (h : emitAll a sr hop m tg (r :: rs) = some segs) :
    ∃ p ps, emitRun a sr hop m tg r = some p ∧ emitAll a sr hop m tg rs = some ps ∧
      segs = p ++ ps := by
  unfold emitAll at h
  rcases h1 : emitRun a sr hop m tg r with _ | p <;> rw [h1] at h
  · simp at h
  · rcases h2 : emitAll a sr hop m tg rs with _ | ps <;> rw [h2] at h
    · simp at h
    · injection h with h
      exact ⟨p, ps, rfl, rfl, h.symm⟩

/-- A run that is audible, or silent but below the duration threshold,
contributes exactly its verbatim input slice to the output. -/
theorem emitRun_verbatim (a : List ℚ) (sr hop : ℕ) (m tg : ℚ) (b : Bool) (s e : ℕ)
    (p : List (Bool × List ℚ)) (h : emitRun a sr hop m tg (b, s, e) = some p)
    (hshort : b = true → ¬ m ≤ (((e - s) * hop : ℕ) : ℚ) / (sr : ℚ)) :
    (p.map Prod.snd).flatten = listSlice a (s * hop) (e * hop) := by
  cases b
  · simp only [emitRun] at h
    injection h with h
    subst h
    simp [listSlice_min]
  · simp only [emitRun, if_neg (hshort rfl)] at h
    by_cases hlt : s * hop < min (e * hop) a.length
    · rw [if_pos hlt] at h
      injection h with h
      subst h
      simp [listSlice_min]
    · rw [if_neg hlt] at h
      injection h with h
      subst h
      simp only [List.map_nil, List.flatten_nil]
      rcases le_or_lt (e * hop) a.length with hle | hgt
      · rw [min_eq_left hle] at hlt
        unfold listSlice
        rw [show e * hop - s * hop = 0 by omega, List.take_zero]
      · rw [min_eq_right hgt.le] at hlt
        exact (listSlice_nil_of_le a _ _ (by omega)).symm

/-- Every piece emitted for a silent run is tagged silent. -/
theorem emitRun_true_tag (a : List ℚ) (sr hop : ℕ) (m tg : ℚ) (s e : ℕ)
    (p : List (Bool × List ℚ)) (h : emitRun a sr hop m tg (true, s, e) = some p) :
    ∀ q ∈ p, q.1 = true := by
  simp only [emitRun] at h
  split at h
  · split at h
    · simp at h
    · injection h with h
      subst h
      simp
  · split at h <;> injection h with h <;> subst h <;> simp

/-- Length of the contribution of one run, when the target duration does not
exceed the minimum duration: at most the run's span `(e - s) * hop`. -/
theorem emitRun_content_length_le (a : List ℚ) (sr hop : ℕ) (m tg : ℚ) (b : Bool) (s e : ℕ)
    (p : List (Bool × List ℚ)) (h : emitRun a sr hop m tg (b, s, e) = some p)
    (htg : 0 ≤ tg) (htm : tg ≤ m) :
    ((p.map Prod.snd).flatten).length ≤ (e - s) * hop := by
  cases b
  · simp only [emitRun] at h
    injection h with h
    subst h
    simp only [List.map_cons, List.map_nil, List.flatten, List.append_nil, listSlice_length]
    have : min (e * hop) a.length - s * hop ≤ e * hop - s * hop := by omega
    calc min (min (e * hop) a.length - s * hop) (a.length - s * hop)
        ≤ min (e * hop) a.length - s * hop := min_le_left _ _
      _ ≤ e * hop - s * hop := this
      _ ≤ (e - s) * hop := by rw [Nat.sub_mul]
  · simp only [emitRun] at h
    split at h
    · rename_i hdur
      split at h
      · simp at h
      · rename_i hz
        injection h with h
        subst h
        simp only [List.map_cons, List.map_nil, List.flatten, List.append_nil,
          List.length_replicate]
        rcases Nat.eq_zero_or_pos sr with hsr | hsr
        · subst hsr
          have h00 : truncQ (tg * ((0 : ℕ) : ℚ)) = 0 := by
            rw [Nat.cast_zero, mul_zero]
            decide
          rw [h00]
          simp
        · have hsrq : (0 : ℚ) < (sr : ℚ) := by exact_mod_cast hsr
          have h1 : m * (sr : ℚ) ≤ (((e - s) * hop : ℕ) : ℚ) := by
            rw [le_div_iff hsrq] at hdur
            exact hdur
          have h2 : tg * (sr : ℚ) ≤ m * (sr : ℚ) :=
            mul_le_mul_of_nonneg_right htm (le_of_lt hsrq)
          have h0 : (0 : ℚ) ≤ tg * (sr : ℚ) := mul_nonneg htg (le_of_lt hsrq)
          have hzfloor : truncQ (tg * (sr : ℚ)) = ⌊tg * (sr : ℚ)⌋ := truncQ_eq_floor _ h0
          have h3 : ((truncQ (tg * (sr : ℚ)) : ℤ) : ℚ) ≤ (((e - s) * hop : ℕ) : ℚ) := by
            rw [hzfloor]
            exact le_trans (Int.floor_le _) (le_trans h2 h1)
          have h4 : truncQ (tg * (sr : ℚ)) ≤ (((e - s) * hop : ℕ) : ℤ) := by exact_mod_cast h3
          exact Int.toNat_le.mpr h4
    · split at h <;> injection h with h <;> subst h
      · simp only [List.map_cons, List.map_nil, List.flatten, List.append_nil, listSlice_length]
        have : min (e * hop) a.length - s * hop ≤ e * hop - s * hop := by omega
        calc min (min (e * hop) a.length - s * hop) (a.length - s * hop)
            ≤ min (e * hop) a.length - s * hop := min_le_left _ _
          _ ≤ e * hop - s * hop := this
          _ ≤ (e - s) * hop := by rw [Nat.sub_mul]
      · simp

/-- The segment loop succeeds whenever no appended zero-count is negative. -/
theorem emitAll_total (a : List ℚ) (sr hop : ℕ) (m tg : ℚ) :
    ∀ rs : List (Bool × ℕ × ℕ),
      (∀ r ∈ rs, r.1 = true → m ≤ (((r.2.2 - r.2.1) * hop : ℕ) : ℚ) / (sr : ℚ) →
        ¬ truncQ (tg * (sr : ℚ)) < 0) →
      ∃ segs, emitAll a sr hop m tg rs = some segs
  | [], _ => ⟨[], rfl⟩
  | (b, s, e) :: rs, hyp => by
    obtain ⟨ps, hps⟩ :=
      emitAll_total a sr hop m tg rs (fun r hr => hyp r (List.mem_cons_of_mem _ hr))
    have hrun : ∃ p, emitRun a sr hop m tg (b, s, e) = some p := by
      cases b
      · exact ⟨_, rfl⟩
      · simp only [emitRun]
        split
        · rename_i hdur
          rw [if_neg (hyp (true, s, e) (List.mem_cons_self _ _) rfl hdur)]
          exact ⟨_, rfl⟩
        · split
          · exact ⟨_, rfl⟩
          · exact ⟨_, rfl⟩
    obtain ⟨p, hp⟩ := hrun
    refine ⟨p ++ ps, ?_⟩
    unfold emitAll
    rw [hp, hps]

/-- Joint content of the loop over a chained run list when no silent run
reaches the duration threshold: the verbatim slice from `lo*hop` to `hi*hop`. -/
theorem emitAll_content_verbatim (a : List ℚ) (sr hop : ℕ) (m tg : ℚ) :
    ∀ (rs : List (Bool × ℕ × ℕ)) (lo hi : ℕ) (segs : List (Bool × List ℚ)),
      Chained lo hi rs →
      (∀ r ∈ rs, r.1 = true → ¬ m ≤ (((r.2.2 - r.2.1) * hop : ℕ) : ℚ) / (sr : ℚ)) →
      emitAll a sr hop m tg rs = some segs →
      (segs.map Prod.snd).flatten = listSlice a (lo * hop) (hi * hop)
  | [], lo, hi, segs, hch, _, hem => by
    rw [chained_nil_iff] at hch
    subst hch
    injection hem with hem
    subst hem
    simp [listSlice]
  | (b, s, e) :: rs, lo, hi, segs, hch, hshort, hem => by
    rw [chained_cons_iff] at hch
    obtain ⟨hs, hlt, hrest⟩ := hch
    subst hs
    obtain ⟨p, ps, hp, hps, hseg⟩ := emitAll_cons_inv _ _ _ _ _ _ _ _ hem
    subst hseg
    have h1 := emitRun_verbatim a sr hop m tg b s e p hp
      (fun hb => hshort (b, s, e) (List.mem_cons_self _ _) hb)
    have h2 := emitAll_content_verbatim a sr hop m tg rs e hi ps hrest
      (fun r hr => hshort r (List.mem_cons_of_mem _ hr)) hps
    rw [List.map_append, List.flatten_append, h1, h2]
    exact listSlice_append a _ _ _ (Nat.mul_le_mul_right _ (le_of_lt hlt))
      (Nat.mul_le_mul_right _ (chained_le _ _ _ hrest))

/-- Total content length over a chained run list, when `0 ≤ tg ≤ m`:
at most `(hi - lo) * hop`. -/
theorem emitAll_content_le (a : List ℚ) (sr hop : ℕ) (m tg : ℚ) (htg : 0 ≤ tg) (htm : tg ≤ m) :
    ∀ (rs : List (Bool × ℕ × ℕ)) (lo hi : ℕ) (segs : List (Bool × List ℚ)),
      Chained lo hi rs → emitAll a sr hop m tg rs = some segs →
      ((segs.map Prod.snd).flatten).length ≤ (hi - lo) * hop
  | [], lo, hi, segs, _, hem => by
    injection hem with hem
    subst hem
    simp
  | (b, s, e) :: rs, lo, hi, segs, hch, hem => by
    rw [chained_cons_iff] at hch
    obtain ⟨hs, hlt, hrest⟩ := hch
    subst hs
    obtain ⟨p, ps, hp, hps, hseg⟩ := emitAll_cons_inv _ _ _ _ _ _ _ _ hem
    subst hseg
    have h1 := emitRun_content_length_le a sr hop m tg b s e p hp htg htm
    have h2 := emitAll_content_le a sr hop m tg htg htm rs e hi ps hrest hps
    rw [List.map_append, List.flatten_append, List.length_append]
    have hehi : e ≤ hi := chained_le _ _ _ hrest
    have h3 : (e - s) * hop + (hi - e) * hop = (hi - s) * hop := by
      rw [← Nat.add_mul]
      congr 1
      omega
    exact le_trans (Nat.add_le_add h1 h2) (le_of_eq h3)

theorem segsOf_eq (a : List ℚ) (sr : ℕ) (t m tg : ℚ) (sf : List Bool)
    (h : silentFramesOf a sr t = some sf) :
    segsOf a sr t m tg = emitAll a sr (10 * sr / 1000) m tg (runsFrom 0 sf) := by
  unfold segsOf
  rw [h]

theorem process_eq_of_segs (a : List ℚ) (sr : ℕ) (t m tg : ℚ) (segs : List (Bool × List ℚ))
    (h : segsOf a sr t m tg = some segs) :
    process_audio_simple a sr t m tg =
      some (if segs = [] then a else (segs.map Prod.snd).flatten) := by
  by_cases hnil : segs = [] <;> simp [process_audio_simple, h, hnil]

/-- When no silent run reaches the duration threshold, the code reproduces the
input waveform exactly. -/
theorem process_verbatim (a : List ℚ) (sr : ℕ) (t m tg : ℚ) (sf : List Bool)
    (h1 : silentFramesOf a sr t = some sf)
    (h2 : ∀ r ∈ runsFrom 0 sf, r.1 = true →
      ¬ m ≤ (((r.2.2 - r.2.1) * (10 * sr / 1000) : ℕ) : ℚ) / (sr : ℚ)) :
    process_audio_simple a sr t m tg = some a := by
  obtain ⟨hhop, hfl, hlen⟩ := silentFramesOf_inv a sr t sf h1
  obtain ⟨segs, hsegs⟩ := emitAll_total a sr (10 * sr / 1000) m tg (runsFrom 0 sf)
    (fun r hr htag hdur => absurd hdur (h2 r hr htag))
  have hch : Chained 0 sf.length (runsFrom 0 sf) := by
    have h := chained_runsFrom sf 0
    simpa using h
  have hcontent := emitAll_content_verbatim a sr (10 * sr / 1000) m tg (runsFrom 0 sf)
    0 sf.length segs hch h2 hsegs
  have hN : a.length ≤ sf.length * (10 * sr / 1000) := by
    have hb := (frameCount_hop_bounds a.length (25 * sr / 1000) (10 * sr / 1000) hhop hfl).1
    rw [hlen]
    exact hb
  have hslice : listSlice a (0 * (10 * sr / 1000)) (sf.length * (10 * sr / 1000)) = a := by
    unfold listSlice
    rw [Nat.zero_mul, List.drop_zero, Nat.sub_zero]
    exact List.take_of_length_le hN
  have hflat : (segs.map Prod.snd).flatten = a := hcontent.trans hslice
  have hps := process_eq_of_segs a sr t m tg segs
    ((segsOf_eq a sr t m tg sf h1).trans hsegs)
  rw [hps]
  by_cases hnil : segs = []
  · rw [if_pos hnil]
  · rw [if_neg hnil, hflat]

/-- The audible pieces of the output are exactly the verbatim audible slices
of the input, in order. -/
theorem emitAll_audible (a : List ℚ) (sr hop : ℕ) (m tg : ℚ) :
    ∀ (rs : List (Bool × ℕ × ℕ)) (segs : List (Bool × List ℚ)),
      emitAll a sr hop m tg rs = some segs →
      (segs.filter (fun q => !q.1)).map Prod.snd =
        rs.filterMap (fun r => if r.1 then none
          else some (listSlice a (r.2.1 * hop) (min (r.2.2 * hop) a.length)))
  | [], segs, h => by
    injection h with h
    subst h
    rfl
  | (b, s, e) :: rs, segs, h => by
    obtain ⟨p, ps, hp, hps, hseg⟩ := emitAll_cons_inv _ _ _ _ _ _ _ _ h
    subst hseg
    have ih := emitAll_audible a sr hop m tg rs ps hps
    rw [List.filter_append, List.map_append, List.filterMap_cons]
    cases b
    · simp only [emitRun] at hp
      injection hp with hp
      subst hp
      simp [ih]
    · have htags := emitRun_true_tag a sr hop m tg s e p hp
      have hfilter : p.filter (fun q => !q.1) = [] := by
        rw [List.filter_eq_nil]
        intro q hq
        simp [htags q hq]
      simp [hfilter, ih]

/-- A frame whose power attains the per-clip maximum sits at 0 dB exactly; it
is classified audible precisely when the threshold is nonpositive. -/
theorem silentB_self_eq_false_iff (p t : ℚ) : silentB p p t = false ↔ t ≤ 0 := by
  have hA : (0 : ℚ) < max (1 / 10 ^ 10) p := lt_max_of_lt_left (by norm_num)
  simp only [silentB, decide_eq_false_iff_not]
  rw [div_self (ne_of_gt hA), one_pow]
  constructor
  · intro h
    by_contra hpos
    push_neg at hpos
    exact h ⟨one_lt_zpow₀ (by norm_num) (Rat.num_pos.mpr hpos),
      lt_trans (by norm_num) hpos⟩
  · rintro ht ⟨h1, _⟩
    have hnum : t.num ≤ 0 := Rat.num_nonpos.mpr ht
    exact absurd h1 (not_lt.mpr (zpow_le_one_of_nonpos (by norm_num) hnum))

theorem framePowers_all_zero (a : List ℚ) (fl hop : ℕ) (ps : List ℚ)
    (ha : ∀ x ∈ a, x = 0) (h : framePowers a fl hop = some ps) : ∀ p ∈ ps, p = 0 := by
  unfold framePowers at h
  split at h
  · exact absurd h (by simp)
  · split at h
    · exact absurd h (by simp)
    · injection h with h
      subst h
      intro p hp
      rw [List.mem_map] at hp
      obtain ⟨j, _, hj⟩ := hp
      have hpad : ∀ x ∈ paddedOf a fl, x = 0 := by
        intro x hx
        unfold paddedOf at hx
        rcases List.mem_append.mp hx with hx | hx
        · rcases List.mem_append.mp hx with hx | hx
          · exact List.eq_of_mem_replicate hx
          · exact ha x hx
        · exact List.eq_of_mem_replicate hx
      have hall : ∀ y ∈ (((paddedOf a fl).drop (j * hop)).take fl).map (fun x => x * x),
          y = 0 := by
        intro y hy
        rw [List.mem_map] at hy
        obtain ⟨x, hx, hxy⟩ := hy
        have hx2 : x ∈ paddedOf a fl := List.mem_of_mem_drop (List.mem_of_mem_take hx)
        rw [← hxy, hpad x hx2, mul_zero]
      rw [← hj, List.sum_eq_zero hall, zero_div]

theorem foldr_max_all_zero (ps : List ℚ) (h : ∀ p ∈ ps, p = 0) : ps.foldr max 0 = 0 := by
  induction ps with
  | nil => rfl
  | cons p ps ih =>
    have hp := h p (List.mem_cons_self _ _)
    have ih2 := ih (fun q hq => h q (List.mem_cons_of_mem _ hq))
    simp [List.foldr, hp, ih2]

/-- On an all-zero waveform every frame is at the 0 dB reference, so for a
nonpositive threshold every frame is classified audible. -/
theorem silentFramesOf_all_zero (a : List ℚ) (sr : ℕ) (t : ℚ) (sf : List Bool)
    (ha : ∀ x ∈ a, x = 0) (ht : t ≤ 0) (h : silentFramesOf a sr t = some sf) :
    ∀ b ∈ sf, b = false := by
  unfold silentFramesOf at h
  rcases hfp : framePowers a (25 * sr / 1000) (10 * sr / 1000) with _ | ps <;> rw [hfp] at h
  · exact absurd h (by simp)
  · injection h with h
    subst h
    intro b hb
    rw [List.mem_map] at hb
    obtain ⟨p, hp, hbp⟩ := hb
    have hp0 := framePowers_all_zero a _ _ ps ha hfp p hp
    have hmax := foldr_max_all_zero ps (framePowers_all_zero a _ _ ps ha hfp)
    rw [← hbp, hp0, hmax]
    exact (silentB_self_eq_false_iff 0 t).mpr ht

/-- Every run tag produced by the scan occurs in the classified frame list. -/
theorem runsFrom_tag_mem : ∀ (bs : List Bool) (i : ℕ) (r : Bool × ℕ × ℕ),
    r ∈ runsFrom i bs → r.1 ∈ bs
  | [], _, r, h => absurd h (by simp [runsFrom])
  | b :: xs, i, r, h => by
    rcases hr : runsFrom (i + 1) xs with _ | ⟨⟨c, s, e⟩, rest⟩ <;>
      simp only [runsFrom, hr] at h
    · rw [List.mem_singleton] at h
      subst h
      exact List.mem_cons_self _ _
    · split at h
      · rcases List.mem_cons.mp h with h | h
        · subst h
          exact List.mem_cons_self _ _
        · have hm := runsFrom_tag_mem xs (i + 1) r (by rw [hr]; exact List.mem_cons_of_mem _ h)
          exact List.mem_cons_of_mem _ hm
      · rcases List.mem_cons.mp h with h | h
        · subst h
          exact List.mem_cons_self _ _
        · have hm := runsFrom_tag_mem xs (i + 1) r (by rw [hr]; exact h)
          exact List.mem_cons_of_mem _ hm


/-- On an all-zero waveform with a nonpositive threshold the code copies the
input through verbatim (every frame is classified audible). -/
theorem process_all_zero_verbatim (a : List ℚ) (sr : ℕ) (t m tg : ℚ) (sf : List Bool)
    (ha : ∀ x ∈ a, x = 0) (ht : t ≤ 0) (h1 : silentFramesOf a sr t = some sf) :
    process_audio_simple a sr t m tg = some a := by
  have hzero := silentFramesOf_all_zero a sr t sf ha ht h1
  refine process_verbatim a sr t m tg sf h1 ?_
  intro r hr htag
  have hf := hzero r.1 (runsFrom_tag_mem sf 0 r hr)
  rw [hf] at htag
  exact absurd htag (by simp)

/-- For an empty waveform the classification succeeds whenever the hop is
positive and the frame length is even (the zero padding then covers exactly
one frame). -/
theorem silentFramesOf_empty_even (sr : ℕ) (t : ℚ) (hhop : 1 ≤ 10 * sr / 1000)
    (heven : 2 * ((25 * sr / 1000) / 2) = 25 * sr / 1000) :
    ∃ sf, silentFramesOf ([] : List ℚ) sr t = some sf := by
  unfold silentFramesOf
  unfold framePowers
  rw [if_neg (by omega)]
  rw [if_neg (by rw [paddedOf_length]; simp; omega)]
  exact ⟨_, rfl⟩

/-! Claims. -/

/-- C1: for every input waveform and parameter setting, every audible-classified
segment of the input is copied verbatim into the output, in its original
left-to-right order, and no audible-classified sample is altered or dropped:
the audible-tagged pieces of the emitted segment list (whose concatenation,
in order, is the output) are exactly the sample ranges of the
audible-classified segments of the input. -/
theorem C1_audible_content_preserved (a : List ℚ) (sr : ℕ) (t m tg : ℚ)
    (sf : List Bool) (segs : List (Bool × List ℚ))
    (h1 : silentFramesOf a sr t = some sf) (h2 : segsOf a sr t m tg = some segs) :
    (segs.filter (fun q => !q.1)).map Prod.snd = audibleContentSpec a (10 * sr / 1000) sf := by
  rw [segsOf_eq a sr t m tg sf h1] at h2
  unfold audibleContentSpec
  exact emitAll_audible a sr (10 * sr / 1000) m tg (runsFrom 0 sf) segs h2

theorem C1_witness :
    silentFramesOf [1, 0, 0, 0, 0, 0] 100 (-40) =
      some [false, false, true, true, true, true, true] ∧
    segsOf [1, 0, 0, 0, 0, 0] 100 (-40) (1 / 10) (1 / 10) =
      some [(false, [1, 0]), (true, [0, 0, 0, 0])] ∧
    (([(false, ([1, 0] : List ℚ)), (true, [0, 0, 0, 0])].filter (fun q => !q.1)).map
        Prod.snd) =
      audibleContentSpec [1, 0, 0, 0, 0, 0] (10 * 100 / 1000)
        [false, false, true, true, true, true, true] :=
  ⟨by with_unfolding_all decide, by with_unfolding_all decide,
    C1_audible_content_preserved [1, 0, 0, 0, 0, 0] 100 (-40) (1 / 10) (1 / 10)
      [false, false, true, true, true, true, true]
      [(false, [1, 0]), (true, [0, 0, 0, 0])]
      (by with_unfolding_all decide) (by with_unfolding_all decide)⟩

/-- C2 counterexample: the claim says the operation fails with an
InvalidParameter error whenever a duration parameter is negative, rejecting it
before any processing; but with `min_silence_duration = -1` the code performs
no validation at all and processes normally (here it even shortens the silent
run, because every duration is `≥ -1`). -/
theorem C2_counterexample :
    process_audio_simple [1, 0, 0, 0, 0, 0] 100 (-40) (-1) (1 / 10) =
      some ([1, 0] ++ List.replicate 10 0) := by
  with_unfolding_all decide

/-- C2 amended: `process_audio_simple` performs no parameter validation.  It
is total on every input on which the framing step succeeds and the computed
zero count `int(target * sr)` is nonnegative, regardless of the sign of
`min_silence_duration` (a negative value simply makes every silent run
eligible for shortening); the only failure modes are the framing step
(`hop < 1`, or padded signal shorter than one frame) and a negative
`np.zeros` count, neither of which is a typed InvalidInput/InvalidParameter
rejection performed before processing. -/
theorem C2_no_validation_total (a : List ℚ) (sr : ℕ) (t m tg : ℚ)
    (sf : List Bool) (h1 : silentFramesOf a sr t = some sf)
    (htg : ¬ truncQ (tg * (sr : ℚ)) < 0) :
    (process_audio_simple a sr t m tg).isSome = true := by
  obtain ⟨segs, hsegs⟩ := emitAll_total a sr (10 * sr / 1000) m tg (runsFrom 0 sf)
    (fun r _ _ _ => htg)
  rw [process_eq_of_segs a sr t m tg segs ((segsOf_eq a sr t m tg sf h1).trans hsegs)]
  rfl

theorem C2_witness :
    (process_audio_simple [1, 0, 0, 0, 0, 0] 100 (-40) (-1) (1 / 10)).isSome = true :=
  C2_no_validation_total [1, 0, 0, 0, 0, 0] 100 (-40) (-1) (1 / 10)
    [false, false, true, true, true, true, true]
    (by with_unfolding_all decide) (by with_unfolding_all decide)

/-- C3: for every waveform all of whose frames are classified silent (which
requires a strictly positive threshold, since the loudest frame always sits at
0 dB) and whose duration `a.length / sr` is at least `min_silence_duration`,
the output is exactly `target_silence_duration` worth of zero samples — a
single emitted silent gap of `int(target * sr) = k` zeros, stated here for a
target that is a whole number `k` of samples. -/
theorem C3_all_silent (a : List ℚ) (sr : ℕ) (t m tg : ℚ) (sf : List Bool) (k : ℕ)
    (h1 : silentFramesOf a sr t = some sf) (h2 : sf ≠ []) (h3 : ∀ b ∈ sf, b = true)
    (h4 : m ≤ (a.length : ℚ) / (sr : ℚ)) (h5 : tg * (sr : ℚ) = (k : ℚ)) :
    process_audio_simple a sr t m tg = some (List.replicate k 0) := by
  obtain ⟨hhop, hfl, hlen⟩ := silentFramesOf_inv a sr t sf h1
  have hruns : runsFrom 0 sf = [(true, 0, sf.length)] := by
    have h := runsFrom_const sf true 0 h3 h2
    simpa using h
  have hsr : 0 < sr := by omega
  have hsrq : (0 : ℚ) < (sr : ℚ) := by exact_mod_cast hsr
  have hN : a.length ≤ sf.length * (10 * sr / 1000) := by
    have hb := (frameCount_hop_bounds a.length (25 * sr / 1000) (10 * sr / 1000) hhop hfl).1
    rw [hlen]
    exact hb
  have hNq : ((a.length : ℚ)) ≤ (((sf.length - 0) * (10 * sr / 1000) : ℕ) : ℚ) := by
    exact_mod_cast (by simpa using hN)
  have hdur : m ≤ (((sf.length - 0) * (10 * sr / 1000) : ℕ) : ℚ) / (sr : ℚ) := by
    refine le_trans h4 ?_
    exact (div_le_div_right hsrq).mpr hNq
  have hk : truncQ (tg * (sr : ℚ)) = (k : ℤ) := by
    rw [h5, truncQ_eq_floor _ (by positivity)]
    exact_mod_cast Int.floor_natCast k
  have hrun : emitRun a sr (10 * sr / 1000) m tg (true, 0, sf.length) =
      some [(true, List.replicate k 0)] := by
    simp only [emitRun]
    rw [if_pos hdur, hk]
    rw [if_neg (by omega : ¬ (k : ℤ) < 0)]
    rw [Int.toNat_natCast]
  have hemit : emitAll a sr (10 * sr / 1000) m tg [(true, 0, sf.length)] =
      some [(true, List.replicate k 0)] := by
    unfold emitAll
    rw [hrun]
    rfl
  have hsegs : segsOf a sr t m tg = some [(true, List.replicate k 0)] := by
    rw [segsOf_eq a sr t m tg sf h1, hruns]
    exact hemit
  rw [process_eq_of_segs a sr t m tg _ hsegs]
  simp

theorem C3_witness :
    process_audio_simple (List.replicate 20 0) 400 1 (1 / 100) (1 / 10) =
      some (List.replicate 40 0) :=
  C3_all_silent (List.replicate 20 0) 400 1 (1 / 100) (1 / 10) (List.replicate 6 true) 40
    (by with_unfolding_all decide) (by decide) (by decide)
    (by norm_num) (by norm_num)

/-- C4 counterexample: the claim says an eligible silent segment is replaced
by exactly `round(target * sr)` zeros; with `target = 0.167` and `sr = 100`
the code emits `int(16.7) = 16` zeros while `round(16.7) = 17`. -/
theorem C4_counterexample :
    segsOf [1, 0, 0, 0, 0, 0] 100 (-40) 0 (167 / 1000) =
      some [(false, [1, 0]), (true, List.replicate 16 0)] ∧
    roundSpec (167 / 1000 * ((100 : ℕ) : ℚ)) = 17 ∧ (16 : ℤ) ≠ 17 := by
  refine ⟨by with_unfolding_all decide, by with_unfolding_all decide, by decide⟩

/-- C4 amended: a silent segment whose duration (computed from its sample
range and the sample rate) is at least `min_silence_duration` is replaced by
exactly `int(target_silence_duration * sr)` zero-valued samples — truncation
toward zero, not `round(...)` — a true silent gap independent of the
segment's original contents and length. -/
theorem C4_silent_replacement (a : List ℚ) (sr hop : ℕ) (m tg : ℚ) (s e : ℕ)
    (hdur : m ≤ (((e - s) * hop : ℕ) : ℚ) / (sr : ℚ))
    (hz : ¬ truncQ (tg * (sr : ℚ)) < 0) :
    emitRun a sr hop m tg (true, s, e) =
      some [(true, List.replicate (truncQ (tg * (sr : ℚ))).toNat 0)] := by
  simp only [emitRun]
  rw [if_pos hdur, if_neg hz]

theorem C4_witness :
    emitRun [1] 100 1 0 (1 / 10) (true, 0, 5) =
      some [(true, List.replicate (truncQ ((1 : ℚ) / 10 * ((100 : ℕ) : ℚ))).toNat 0)] ∧
    (truncQ ((1 : ℚ) / 10 * ((100 : ℕ) : ℚ))).toNat = 10 :=
  ⟨C4_silent_replacement [1] 100 1 0 (1 / 10) 0 5 (by positivity)
      (by with_unfolding_all decide),
    by with_unfolding_all decide⟩

/-- C5 counterexample: the claim's frame count `floor((N - fl)/hop) + 1`
(here `(20 - 5)/2 + 1 = 8` for 20 samples at `sr = 200`) does not match the
code: `librosa.feature.rms` centers frames by zero-padding `fl // 2` on each
side, giving 10 frames. -/
theorem C5_counterexample :
    silentFramesOf (List.replicate 20 1) 200 (-40) = some (List.replicate 10 false) ∧
    ((List.replicate 20 (1 : ℚ)).length - 25 * 200 / 1000) / (10 * 200 / 1000) + 1 = 8 ∧
    (List.replicate 10 false).length ≠ 8 := by
  refine ⟨by with_unfolding_all decide, by decide, by decide⟩

/-- C5 amended: for a waveform of `N` samples the number of classified frames
is `floor((N + 2*(fl/2) - fl)/hop) + 1` where `fl = int(0.025*sr)` and
`hop = int(0.010*sr)`: the signal is zero-padded by `fl // 2` on each side
(librosa's centered framing) and only the padded tail shorter than one frame
is dropped. -/
theorem C5_frame_count (a : List ℚ) (sr : ℕ) (t : ℚ) (sf : List Bool)
    (h : silentFramesOf a sr t = some sf) :
    sf.length =
      1 + (2 * ((25 * sr / 1000) / 2) + a.length - 25 * sr / 1000) / (10 * sr / 1000) :=
  (silentFramesOf_inv a sr t sf h).2.2

theorem C5_witness :
    (List.replicate 10 false).length =
      1 + (2 * ((25 * 200 / 1000) / 2) + (List.replicate 20 (1 : ℚ)).length -
        25 * 200 / 1000) / (10 * 200 / 1000) :=
  C5_frame_count (List.replicate 20 1) 200 (-40) (List.replicate 10 false)
    (by with_unfolding_all decide)

/-- C6: a silent segment whose duration is strictly below
`min_silence_duration` contributes its original sample range
`[s*hop, min(e*hop, len))` to the output verbatim, with no shortening (when
the range is empty, nothing is appended, which is the same contribution). -/
theorem C6_short_silence_verbatim (a : List ℚ) (sr hop : ℕ) (m tg : ℚ) (s e : ℕ)
    (p : List (Bool × List ℚ)) (h : emitRun a sr hop m tg (true, s, e) = some p)
    (hshort : ¬ m ≤ (((e - s) * hop : ℕ) : ℚ) / (sr : ℚ)) :
    (p.map Prod.snd).flatten = listSlice a (s * hop) (min (e * hop) a.length) := by
  rw [listSlice_min]
  exact emitRun_verbatim a sr hop m tg true s e p h (fun _ => hshort)

theorem C6_witness :
    (([(true, ([2, 3] : List ℚ))]).map Prod.snd).flatten =
      listSlice [1, 2, 3, 4] (1 * 1) (min (3 * 1) (List.length ([1, 2, 3, 4] : List ℚ))) :=
  C6_short_silence_verbatim [1, 2, 3, 4] 100 1 (1 / 2) (1 / 10) 1 3 [(true, [2, 3])]
    (by with_unfolding_all decide) (by with_unfolding_all decide)

/-- C7 counterexample: the claim says output length ≤ input length whenever a
silent segment was shortened; on `[1] ++ ten zeros` at `sr = 100` (defaults)
the trailing silent run of 10 frames (0.1s by frame count) has a clamped
sample range of only 9 samples but is replaced by 10 zeros, so the output has
12 samples from an 11-sample input. -/
theorem C7_counterexample :
    process_audio_simple [1, 0, 0, 0, 0, 0, 0, 0, 0, 0, 0] 100 (-40) (1 / 10) (1 / 10) =
      some ([1, 0] ++ List.replicate 10 0) ∧
    segsOf [1, 0, 0, 0, 0, 0, 0, 0, 0, 0, 0] 100 (-40) (1 / 10) (1 / 10) =
      some [(false, [1, 0]), (true, List.replicate 10 0)] ∧
    List.length ([1, 0, 0, 0, 0, 0, 0, 0, 0, 0, 0] : List ℚ) <
      (([1, 0] : List ℚ) ++ List.replicate 10 0).length := by
  refine ⟨by with_unfolding_all decide, by with_unfolding_all decide, by decide⟩

/-- C7 amended: (a) when no silent segment is shortened the output equals the
input exactly; (b) when `0 ≤ target ≤ min` the output length never exceeds
the input length plus one hop — the end-of-waveform clamp can add up to one
hop of slack, as the counterexample shows, so the unqualified
`output ≤ input` fails. -/
theorem C7_output_length :
    (∀ (a : List ℚ) (sr : ℕ) (t m tg : ℚ) (sf : List Bool),
      silentFramesOf a sr t = some sf →
      (∀ r ∈ runsFrom 0 sf, r.1 = true →
        ¬ m ≤ (((r.2.2 - r.2.1) * (10 * sr / 1000) : ℕ) : ℚ) / (sr : ℚ)) →
      process_audio_simple a sr t m tg = some a) ∧
    (∀ (a : List ℚ) (sr : ℕ) (t m tg : ℚ) (out : List ℚ), 0 ≤ tg → tg ≤ m →
      process_audio_simple a sr t m tg = some out →
      out.length ≤ a.length + 10 * sr / 1000) := by
  constructor
  · exact fun a sr t m tg sf h1 h2 => process_verbatim a sr t m tg sf h1 h2
  · intro a sr t m tg out htg htm hp
    unfold process_audio_simple at hp
    rcases hs : segsOf a sr t m tg with _ | segs <;> rw [hs] at hp
    · exact absurd hp (by simp)
    · unfold segsOf at hs
      rcases h1 : silentFramesOf a sr t with _ | sf <;> rw [h1] at hs
      · exact absurd hs (by simp)
      · obtain ⟨hhop, hfl, hlen⟩ := silentFramesOf_inv a sr t sf h1
        have hch : Chained 0 sf.length (runsFrom 0 sf) := by
          have h := chained_runsFrom sf 0
          simpa using h
        have hbound := emitAll_content_le a sr (10 * sr / 1000) m tg htg htm
          (runsFrom 0 sf) 0 sf.length segs hch hs
        have hmax : sf.length * (10 * sr / 1000) ≤ a.length + 10 * sr / 1000 := by
          have hb :=
            (frameCount_hop_bounds a.length (25 * sr / 1000) (10 * sr / 1000) hhop hfl).2
          rw [hlen]
          exact hb
        have hp2 : (if segs = [] then some a else some ((segs.map Prod.snd).flatten)) =
            some out := hp
        by_cases hnil : segs = []
        · rw [if_pos hnil] at hp2
          injection hp2 with hp2
          subst hp2
          exact Nat.le_add_right _ _
        · rw [if_neg hnil] at hp2
          injection hp2 with hp2
          subst hp2
          have hbound2 :
              ((segs.map Prod.snd).flatten).length ≤ sf.length * (10 * sr / 1000) := by
            simpa using hbound
          exact le_trans hbound2 hmax

theorem C7_witness :
    process_audio_simple [1, 1, 1, 1] 400 (-40) (1 / 10) (1 / 10) = some [1, 1, 1, 1] ∧
    List.length ([1, 1, 1, 1] : List ℚ) ≤
      List.length ([1, 1, 1, 1] : List ℚ) + 10 * 400 / 1000 :=
  ⟨C7_output_length.1 [1, 1, 1, 1] 400 (-40) (1 / 10) (1 / 10) [false, false]
      (by with_unfolding_all decide) (by with_unfolding_all decide),
    C7_output_length.2 [1, 1, 1, 1] 400 (-40) (1 / 10) (1 / 10) [1, 1, 1, 1]
      (by norm_num) (by norm_num)
      (C7_output_length.1 [1, 1, 1, 1] 400 (-40) (1 / 10) (1 / 10) [false, false]
        (by with_unfolding_all decide) (by with_unfolding_all decide))⟩

/-- C8 counterexample: the claim says an empty waveform yields an empty output
without error; at `sr = 200` the frame length `int(0.025*200) = 5` is odd, the
zero padding covers only 4 samples, and the framing step fails (librosa
raises), so the code errors instead of returning an empty waveform. -/
theorem C8_counterexample :
    process_audio_simple [] 200 (-40) (1 / 10) (1 / 10) = none := by
  with_unfolding_all decide

/-- C8 amended: (a) an empty waveform produces an empty output without error
when the hop is positive, the frame length is even (so the centered zero
padding covers exactly one frame) and the threshold is nonpositive; with an
odd frame length the framing step fails instead.  (b) Whenever the emitted
segment list is empty the original waveform is returned unmodified. -/
theorem C8_empty_and_degenerate :
    (∀ (sr : ℕ) (t m tg : ℚ), 1 ≤ 10 * sr / 1000 →
      2 * ((25 * sr / 1000) / 2) = 25 * sr / 1000 → t ≤ 0 →
      process_audio_simple [] sr t m tg = some []) ∧
    (∀ (a : List ℚ) (sr : ℕ) (t m tg : ℚ), segsOf a sr t m tg = some [] →
      process_audio_simple a sr t m tg = some a) := by
  constructor
  · intro sr t m tg hhop heven ht
    obtain ⟨sf, hsf⟩ := silentFramesOf_empty_even sr t hhop heven
    exact process_all_zero_verbatim [] sr t m tg sf (by simp) ht hsf
  · intro a sr t m tg h
    rw [process_eq_of_segs a sr t m tg [] h]
    rw [if_pos rfl]

theorem C8_witness :
    process_audio_simple [] 400 (-40) (1 / 10) (1 / 10) = some [] ∧
    process_audio_simple [] 400 1 1 (1 / 10) = some [] :=
  ⟨C8_empty_and_degenerate.1 400 (-40) (1 / 10) (1 / 10) (by decide) (by decide)
      (by norm_num),
    C8_empty_and_degenerate.2 [] 400 1 1 (1 / 10) (by with_unfolding_all decide)⟩

/-- C9 counterexample: compact is not idempotent under its default
parameters.  On `[1,1,1,1] ++ 32 zeros ++ [1]` at `sr = 250` the first pass
yields a 36-sample output whose zero run re-detects as 13 frames (0.104s);
the second pass shortens it again, replacing a 26-sample interior range with
25 zeros, so re-running compact changes the output. -/
theorem C9_counterexample :
    process_audio_simple ([1, 1, 1, 1] ++ List.replicate 32 0 ++ [1]) 250 (-40)
        (1 / 10) (1 / 10) =
      some ([1, 1, 1, 1] ++ List.replicate 31 0 ++ [1]) ∧
    process_audio_simple ([1, 1, 1, 1] ++ List.replicate 31 0 ++ [1]) 250 (-40)
        (1 / 10) (1 / 10) ≠
      some ([1, 1, 1, 1] ++ List.replicate 31 0 ++ [1]) := by
  refine ⟨by with_unfolding_all decide, by with_unfolding_all decide⟩

/-- C9 amended: compact is not idempotent in general (see the
counterexample); it is idempotent on every waveform in which no silent run
reaches `min_silence_duration`, because the first pass is then the identity:
the output equals the input and a second application with the same parameters
returns it unchanged. -/
theorem C9_idempotent_when_not_shortening (a : List ℚ) (sr : ℕ) (t m tg : ℚ)
    (sf : List Bool) (h1 : silentFramesOf a sr t = some sf)
    (h2 : ∀ r ∈ runsFrom 0 sf, r.1 = true →
      ¬ m ≤ (((r.2.2 - r.2.1) * (10 * sr / 1000) : ℕ) : ℚ) / (sr : ℚ)) :
    process_audio_simple a sr t m tg = some a ∧
    (process_audio_simple a sr t m tg).bind (fun o => process_audio_simple o sr t m tg) =
      process_audio_simple a sr t m tg := by
  have h := process_verbatim a sr t m tg sf h1 h2
  refine ⟨h, ?_⟩
  rw [h]
  simpa using h

theorem C9_witness :
    process_audio_simple [1, 1, 1, 1] 400 (-40) (1 / 10) (1 / 10) = some [1, 1, 1, 1] ∧
    (process_audio_simple [1, 1, 1, 1] 400 (-40) (1 / 10) (1 / 10)).bind
        (fun o => process_audio_simple o 400 (-40) (1 / 10) (1 / 10)) =
      process_audio_simple [1, 1, 1, 1] 400 (-40) (1 / 10) (1 / 10) :=
  C9_idempotent_when_not_shortening [1, 1, 1, 1] 400 (-40) (1 / 10) (1 / 10)
    [false, false] (by with_unfolding_all decide) (by with_unfolding_all decide)

/-- C10: frame energies are decibels relative to the per-clip maximum frame
energy, so a frame whose power attains the maximum sits at exactly 0 dB and
is classified audible whenever the threshold is ≤ 0; in particular an
all-zero waveform (all of whose frames evaluate to the 0 dB reference) is
classified entirely audible and copied through verbatim rather than being
shortened to a silent gap. -/
theorem C10_relative_reference_max_frame_audible :
    (∀ p t : ℚ, silentB p p t = false ↔ t ≤ 0) ∧
    (∀ (a : List ℚ) (sr : ℕ) (t m tg : ℚ) (sf : List Bool),
      (∀ x ∈ a, x = 0) → t ≤ 0 → silentFramesOf a sr t = some sf →
      (∀ b ∈ sf, b = false) ∧ process_audio_simple a sr t m tg = some a) := by
  constructor
  · exact silentB_self_eq_false_iff
  · intro a sr t m tg sf ha ht h1
    exact ⟨silentFramesOf_all_zero a sr t sf ha ht h1,
      process_all_zero_verbatim a sr t m tg sf ha ht h1⟩

theorem C10_witness :
    silentB 1 1 (-40) = false ∧
    ((∀ b ∈ [false, false], b = false) ∧
      process_audio_simple [0, 0, 0, 0] 400 0 (1 / 10) (1 / 10) = some [0, 0, 0, 0]) :=
  ⟨(C10_relative_reference_max_frame_audible.1 1 (-40)).mpr (by norm_num),
    C10_relative_reference_max_frame_audible.2 [0, 0, 0, 0] 400 0 (1 / 10) (1 / 10)
      [false, false] (by with_unfolding_all decide) (le_refl 0)
      (by with_unfolding_all decide)⟩
